import Mathlib

/-!
Verification of the streaming result cursor of `cursor.go` (package gorethink).

The Go source is shallowly embedded: the circular `queue`, the `Cursor` state
and its methods (`handleError`, `extend`, `loadNext`, `Next`, `Close`, `One`,
`IsNil`, `fetchMore`) become pure Lean functions over explicit state.  The
external collaborators (the wire connection's `Query`/reply-dispatch, the
`json.Unmarshal` decoder, the `recursivelyConvertPseudotype` normalizer and the
`encoding.Decode` destination decoder) are not part of the source file; they
are passed in as function parameters, and the connection's scripted replies
live in a small `Sys` wrapper, following the spec's description of those
interfaces.  Go's `interface{}`-typed values are modelled by `Value`, with
`Value.vnull` playing the role of the untyped `nil` interface.
-/

/-- Generic decoded value (the `interface{}` tree produced by `json.Unmarshal`
followed by pseudotype conversion).  `vnull` is the untyped Go `nil`. -/
inductive Value where
  | vnull
  | vbool (b : Bool)
  | vnum (n : Int)
  | vstr (s : String)
  | varr (elems : List Value)

/-- Errors visible to the cursor. `cursorClosed` is `errCursorClosed`;
`emptyResult` is the package's `ErrEmptyResult`; `external` covers transport
and decode errors surfaced verbatim from collaborators.  `fuelExhausted` is a
modelling artefact marking the cut-off of the (potentially non-terminating)
fetch loop; no theorem relies on a `fuelExhausted` outcome. -/
inductive Err where
  | cursorClosed
  | emptyResult
  | fuelExhausted
  | external (s : String)
deriving DecidableEq

/-- One raw undecoded batch as stored in the `responses` queue: either the Go
`nil` interface (the queue's sentinel, never pushed by `extend`) or a
`json.RawMessage` with its raw text. -/
inductive RawBatch where
  | rawNil
  | msg (s : String)
deriving DecidableEq

/- ------------------------------------------------------------------
   The circular queue (cursor.go:372-428), generic over the element type
   exactly as the Go version is generic via `interface{}`.  The Go `nil`
   written into vacated slots and returned on empty pops is passed
   explicitly as `nilv`.
   ------------------------------------------------------------------ -/

structure queue (α : Type) where
  elems : List α
  nelems : Nat
  popi : Nat
  pushi : Nat
deriving DecidableEq

def queue.mk0 {α : Type} : queue α := ⟨[], 0, 0, 0⟩

def queue.Len {α : Type} (q : queue α) : Nat := q.nelems

/-- The capacity tier chosen by `expand` (cursor.go:405-413). -/
def nextCap (curcap : Nat) : Nat :=
  if curcap = 0 then 8
  else if curcap < 1024 then curcap * 2
  else curcap + curcap / 4

/-- `queue.expand` (cursor.go:404-428).  The fresh Go array is zero-filled, so
the slots not covered by the two `copy` calls hold `nilv`. -/
def queue.expand {α : Type} (nilv : α) (q : queue α) : queue α :=
  let curcap := q.elems.length
  let newcap := nextCap curcap
  if q.popi = 0 then
    { elems := q.elems ++ List.replicate (newcap - curcap) nilv
      nelems := q.nelems, popi := q.popi, pushi := curcap }
  else
    let newpopi := newcap - (curcap - q.popi)
    { elems := q.elems.take q.popi ++ List.replicate (newpopi - q.popi) nilv
               ++ q.elems.drop q.popi
      nelems := q.nelems, popi := newpopi, pushi := q.pushi }

/-- The old backing array after `expand`'s clearing loop
`for i := range q.elems { q.elems[i] = nil }` (cursor.go:424-426). -/
def queue.expandClearedOld {α : Type} (nilv : α) (q : queue α) : List α :=
  (List.range q.elems.length).foldl (fun a i => a.set i nilv) q.elems

/-- The write part of `queue.Push` (cursor.go:384-386): store at `pushi`,
bump the count, advance `pushi` modulo the capacity. -/
def queue.pushRaw {α : Type} (q : queue α) (elem : α) : queue α :=
  let q := { q with elems := q.elems.set q.pushi elem, nelems := q.nelems + 1 }
  { q with pushi := (q.pushi + 1) % q.elems.length }

/-- `queue.Push` (cursor.go:380-387). -/
def queue.Push {α : Type} (nilv : α) (q : queue α) (elem : α) : queue α :=
  let q := if q.nelems = q.elems.length then q.expand nilv else q
  q.pushRaw elem

/-- `queue.Pop` (cursor.go:388-397): result value paired with the new state. -/
def queue.Pop {α : Type} (nilv : α) (q : queue α) : α × queue α :=
  if q.nelems = 0 then (nilv, q)
  else
    let elem := q.elems.getD q.popi nilv
    let q := { q with elems := q.elems.set q.popi nilv, nelems := q.nelems - 1 }
    (elem, { q with popi := (q.popi + 1) % q.elems.length })

/-- `queue.Peek` (cursor.go:398-403). -/
def queue.Peek {α : Type} (nilv : α) (q : queue α) : α :=
  if q.nelems = 0 then nilv else q.elems.getD q.popi nilv

/-- The logical FIFO content of the ring buffer: `nelems` slots starting at
`popi`, wrapping around. -/
def queue.toList {α : Type} (nilv : α) (q : queue α) : List α :=
  (List.range q.nelems).map
    (fun i => q.elems.getD ((q.popi + i) % q.elems.length) nilv)

/-- Structural well-formedness of the ring buffer indices. -/
def queue.wf {α : Type} (q : queue α) : Prop :=
  q.nelems ≤ q.elems.length ∧
  (q.elems.length = 0 → q.popi = 0 ∧ q.pushi = 0) ∧
  (0 < q.elems.length →
    q.popi < q.elems.length ∧ q.pushi = (q.popi + q.nelems) % q.elems.length)

instance {α : Type} (q : queue α) : Decidable q.wf := by
  unfold queue.wf; infer_instance

theorem queue.length_toList {α : Type} (nilv : α) (q : queue α) :
    (q.toList nilv).length = q.nelems := by
  simp [queue.toList]

theorem queue.wf_mk0 {α : Type} : (queue.mk0 (α := α)).wf := by
  simp [queue.wf, queue.mk0]

theorem queue.toList_mk0 {α : Type} (nilv : α) :
    (queue.mk0 (α := α)).toList nilv = [] := by
  simp [queue.toList, queue.mk0]

/- ------------------------------------------------------------------
   Ring-buffer index arithmetic helpers.
   ------------------------------------------------------------------ -/

theorem mod_shift_inj {n p i j : Nat} (hi : i < n) (hj : j < n)
    (h : (p + i) % n = (p + j) % n) : i = j := by
  have h2 : Nat.ModEq n i j :=
    Nat.ModEq.add_left_cancel' p (show Nat.ModEq n (p + i) (p + j) from h)
  have h3 : i % n = j % n := h2
  rwa [Nat.mod_eq_of_lt hi, Nat.mod_eq_of_lt hj] at h3

theorem getD_set_eq {α : Type} {l : List α} {i : Nat} (h : i < l.length)
    (a d : α) : (l.set i a).getD i d = a := by
  simp [List.getD_eq_getElem?_getD, List.getElem?_set_self h]

theorem getD_set_ne {α : Type} {l : List α} {i j : Nat} (h : i ≠ j)
    (a d : α) : (l.set i a).getD j d = l.getD j d := by
  simp [List.getD_eq_getElem?_getD, List.getElem?_set_ne h]

theorem lt_nextCap (c : Nat) : c < nextCap c := by
  unfold nextCap
  split
  · omega
  · split <;> omega

theorem getD_append_left {α : Type} {l₁ l₂ : List α} {i : Nat}
    (h : i < l₁.length) (d : α) : (l₁ ++ l₂).getD i d = l₁.getD i d := by
  simp [List.getD_eq_getElem?_getD, List.getElem?_append_left h]

theorem getD_append_right {α : Type} {l₁ l₂ : List α} {i : Nat}
    (h : l₁.length ≤ i) (d : α) :
    (l₁ ++ l₂).getD i d = l₂.getD (i - l₁.length) d := by
  simp [List.getD_eq_getElem?_getD, List.getElem?_append_right h]

theorem getD_take {α : Type} {l : List α} {n i : Nat} (h : i < n) (d : α) :
    (l.take n).getD i d = l.getD i d := by
  simp [List.getD_eq_getElem?_getD, List.getElem?_take_of_lt h]

theorem getD_drop {α : Type} {l : List α} {n i : Nat} (d : α) :
    (l.drop n).getD i d = l.getD (n + i) d := by
  simp [List.getD_eq_getElem?_getD, List.getElem?_drop]

/-- `expand` on a full queue: well-formedness is preserved, the logical FIFO
content is unchanged, the element count is unchanged, and the capacity moves
to exactly the next tier (in particular it strictly grows). -/
theorem queue.expand_spec {α : Type} (nilv : α) (q : queue α)
    (hwf : q.wf) (hfull : q.nelems = q.elems.length) :
    (q.expand nilv).wf
    ∧ (q.expand nilv).toList nilv = q.toList nilv
    ∧ (q.expand nilv).nelems = q.nelems
    ∧ (q.expand nilv).elems.length = nextCap q.elems.length
    ∧ q.elems.length < (q.expand nilv).elems.length := by
  obtain ⟨hle, hz, hpos⟩ := hwf
  have hcap := lt_nextCap q.elems.length
  by_cases hp : q.popi = 0
  case pos =>
    have helems : (q.expand nilv).elems
        = q.elems ++ List.replicate (nextCap q.elems.length - q.elems.length) nilv := by
      simp only [queue.expand, if_pos hp]
    have hpopi : (q.expand nilv).popi = 0 := by
      simp only [queue.expand, if_pos hp]; exact hp
    have hpushi : (q.expand nilv).pushi = q.elems.length := by
      simp only [queue.expand, if_pos hp]
    have hnel : (q.expand nilv).nelems = q.nelems := by
      simp only [queue.expand, if_pos hp]
    have hlen : (q.expand nilv).elems.length = nextCap q.elems.length := by
      rw [helems]; simp; omega
    refine ⟨⟨?_, ?_, ?_⟩, ?_, hnel, hlen, ?_⟩
    · rw [hnel, hlen]; omega
    · rw [hlen]; omega
    · intro _
      rw [hpopi, hpushi, hnel, hlen]
      refine ⟨by omega, ?_⟩
      rw [Nat.zero_add, hfull, Nat.mod_eq_of_lt hcap]
    · unfold queue.toList
      rw [hnel, hpopi, helems]
      have hlenB : (q.elems ++ List.replicate (nextCap q.elems.length - q.elems.length) nilv).length
          = nextCap q.elems.length := by simp; omega
      rw [hlenB]
      apply List.map_congr_left
      intro i hi
      rw [List.mem_range] at hi
      have hiL : i < q.elems.length := by omega
      rw [Nat.zero_add, Nat.mod_eq_of_lt (by omega), getD_append_left hiL,
        hp, Nat.zero_add, Nat.mod_eq_of_lt hiL]
    · rw [hlen]; exact hcap
  case neg =>
    have hlpos : 0 < q.elems.length := by
      rcases Nat.eq_zero_or_pos q.elems.length with h0 | h
      · exact absurd (hz h0).1 hp
      · exact h
    obtain ⟨hpop, hpush⟩ := hpos hlpos
    have hppos : 0 < q.popi := Nat.pos_of_ne_zero hp
    have hpushi_eq : q.pushi = q.popi := by
      rw [hpush, hfull, Nat.add_mod_right, Nat.mod_eq_of_lt hpop]
    have helems : (q.expand nilv).elems
        = q.elems.take q.popi
          ++ List.replicate
              ((nextCap q.elems.length - (q.elems.length - q.popi)) - q.popi) nilv
          ++ q.elems.drop q.popi := by
      simp only [queue.expand, if_neg hp]
    have hpopi : (q.expand nilv).popi
        = nextCap q.elems.length - (q.elems.length - q.popi) := by
      simp only [queue.expand, if_neg hp]
    have hpushi : (q.expand nilv).pushi = q.pushi := by
      simp only [queue.expand, if_neg hp]
    have hnel : (q.expand nilv).nelems = q.nelems := by
      simp only [queue.expand, if_neg hp]
    have hlenTR : (q.elems.take q.popi
        ++ List.replicate
            ((nextCap q.elems.length - (q.elems.length - q.popi)) - q.popi) nilv).length
        = nextCap q.elems.length - (q.elems.length - q.popi) := by
      simp; omega
    have hlen : (q.expand nilv).elems.length = nextCap q.elems.length := by
      rw [helems]; simp; omega
    refine ⟨⟨?_, ?_, ?_⟩, ?_, hnel, hlen, ?_⟩
    · rw [hnel, hlen]; omega
    · rw [hlen]; omega
    · intro _
      rw [hpopi, hpushi, hpushi_eq, hnel, hlen, hfull]
      refine ⟨by omega, ?_⟩
      have h1 : nextCap q.elems.length - (q.elems.length - q.popi) + q.elems.length
          = nextCap q.elems.length + q.popi := by omega
      rw [h1, Nat.add_mod_left, Nat.mod_eq_of_lt (by omega)]
    · unfold queue.toList
      rw [hnel, hpopi, helems]
      have hlenB : (q.elems.take q.popi
          ++ List.replicate
              ((nextCap q.elems.length - (q.elems.length - q.popi)) - q.popi) nilv
          ++ q.elems.drop q.popi).length = nextCap q.elems.length := by
        simp; omega
      rw [hlenB]
      apply List.map_congr_left
      intro i hi
      rw [List.mem_range] at hi
      have hiL : i < q.elems.length := by omega
      by_cases hcase : i < q.elems.length - q.popi
      · rw [Nat.mod_eq_of_lt (by omega),
          getD_append_right (by rw [hlenTR]; omega), hlenTR]
        have h2 : nextCap q.elems.length - (q.elems.length - q.popi) + i
            - (nextCap q.elems.length - (q.elems.length - q.popi)) = i := by omega
        rw [h2, getD_drop, Nat.mod_eq_of_lt (show q.popi + i < q.elems.length by omega)]
      · have hge : nextCap q.elems.length
            ≤ nextCap q.elems.length - (q.elems.length - q.popi) + i := by omega
        rw [Nat.mod_eq_sub_mod hge]
        have h3 : nextCap q.elems.length - (q.elems.length - q.popi) + i
            - nextCap q.elems.length = i - (q.elems.length - q.popi) := by omega
        rw [h3, Nat.mod_eq_of_lt (by omega),
          getD_append_left (by rw [hlenTR]; omega),
          getD_append_left (by simp; omega),
          getD_take (show i - (q.elems.length - q.popi) < q.popi by omega)]
        have hge2 : q.elems.length ≤ q.popi + i := by omega
        rw [Nat.mod_eq_sub_mod hge2, Nat.mod_eq_of_lt (by omega)]
        have h4 : q.popi + i - q.elems.length = i - (q.elems.length - q.popi) := by
          omega
        rw [h4]
    · rw [hlen]; exact hcap

/-- The write step of `Push` on a non-full well-formed queue appends to the
logical content. -/
theorem queue.pushRaw_spec {α : Type} (nilv : α) (q : queue α) (v : α)
    (hwf : q.wf) (hlt : q.nelems < q.elems.length) :
    (q.pushRaw v).wf
    ∧ (q.pushRaw v).toList nilv = q.toList nilv ++ [v]
    ∧ (q.pushRaw v).elems.length = q.elems.length := by
  obtain ⟨hle, hz, hpos⟩ := hwf
  have hlpos : 0 < q.elems.length := by omega
  obtain ⟨hpop, hpush⟩ := hpos hlpos
  have hpushlt : q.pushi < q.elems.length := by
    rw [hpush]; exact Nat.mod_lt _ hlpos
  have helems : (q.pushRaw v).elems = q.elems.set q.pushi v := by
    simp only [queue.pushRaw]
  have hnel : (q.pushRaw v).nelems = q.nelems + 1 := by
    simp only [queue.pushRaw]
  have hpopi : (q.pushRaw v).popi = q.popi := by
    simp only [queue.pushRaw]
  have hpushi : (q.pushRaw v).pushi = (q.pushi + 1) % (q.elems.set q.pushi v).length := by
    simp only [queue.pushRaw]
  have hlen : (q.pushRaw v).elems.length = q.elems.length := by
    rw [helems, List.length_set]
  refine ⟨⟨?_, ?_, ?_⟩, ?_, hlen⟩
  · rw [hnel, hlen]; omega
  · rw [hlen]; omega
  · intro _
    rw [hpopi, hpushi, hnel, hlen, List.length_set]
    refine ⟨hpop, ?_⟩
    rw [hpush, Nat.mod_add_mod, Nat.add_assoc]
  · unfold queue.toList
    rw [hnel, hpopi, helems, List.length_set, List.range_succ, List.map_append]
    congr 1
    · apply List.map_congr_left
      intro i hi
      rw [List.mem_range] at hi
      have hne : q.pushi ≠ (q.popi + i) % q.elems.length := by
        intro hcon
        rw [hpush] at hcon
        have := mod_shift_inj (p := q.popi) (by omega : q.nelems < q.elems.length)
          (by omega : i < q.elems.length) hcon
        omega
      rw [getD_set_ne hne]
    · simp only [List.map_cons, List.map_nil]
      rw [show (q.popi + q.nelems) % q.elems.length = q.pushi from hpush.symm,
        getD_set_eq hpushlt]

/-- `Push` on a well-formed queue: well-formed again, appends the element to
the logical FIFO content, and never shrinks the backing array. -/
theorem queue.push_spec {α : Type} (nilv : α) (q : queue α) (v : α)
    (hwf : q.wf) :
    (q.Push nilv v).wf
    ∧ (q.Push nilv v).toList nilv = q.toList nilv ++ [v]
    ∧ q.elems.length ≤ (q.Push nilv v).elems.length := by
  by_cases hf : q.nelems = q.elems.length
  · have hPush : q.Push nilv v = (q.expand nilv).pushRaw v := by
      simp only [queue.Push, if_pos hf]
    obtain ⟨hw, ht, hn, hlen, hlt⟩ := queue.expand_spec nilv q hwf hf
    have hlt2 : (q.expand nilv).nelems < (q.expand nilv).elems.length := by omega
    obtain ⟨w1, w2, w3⟩ := queue.pushRaw_spec nilv (q.expand nilv) v hw hlt2
    rw [hPush]
    exact ⟨w1, by rw [w2, ht], by omega⟩
  · have hPush : q.Push nilv v = q.pushRaw v := by
      simp only [queue.Push, if_neg hf]
    have hlt2 : q.nelems < q.elems.length := Nat.lt_of_le_of_ne hwf.1 hf
    obtain ⟨w1, w2, w3⟩ := queue.pushRaw_spec nilv q v hwf hlt2
    rw [hPush]
    exact ⟨w1, w2, by omega⟩

/-- `Pop` on an empty queue returns the `nil` sentinel and leaves the queue
untouched (cursor.go:389-391). -/
theorem queue.pop_empty {α : Type} (nilv : α) (q : queue α)
    (h : q.nelems = 0) : q.Pop nilv = (nilv, q) := by
  simp [queue.Pop, h]

/-- `Pop` on a non-empty well-formed queue returns the logical head, clears
the vacated slot, keeps the capacity, and the remaining content is the tail. -/
theorem queue.pop_spec {α : Type} (nilv : α) (q : queue α)
    (hwf : q.wf) (hne : 0 < q.nelems) :
    (q.Pop nilv).1 = (q.toList nilv).headD nilv
    ∧ (q.Pop nilv).2.wf
    ∧ (q.Pop nilv).2.toList nilv = (q.toList nilv).tail
    ∧ (q.Pop nilv).2.elems.getD q.popi nilv = nilv
    ∧ (q.Pop nilv).2.elems.length = q.elems.length := by
  obtain ⟨hle, hz, hpos⟩ := hwf
  have hlpos : 0 < q.elems.length := by omega
  obtain ⟨hpop, hpush⟩ := hpos hlpos
  have hne' : ¬q.nelems = 0 := by omega
  have hfst : (q.Pop nilv).1 = q.elems.getD q.popi nilv := by
    simp only [queue.Pop, if_neg hne']
  have helems : (q.Pop nilv).2.elems = q.elems.set q.popi nilv := by
    simp only [queue.Pop, if_neg hne']
  have hnel : (q.Pop nilv).2.nelems = q.nelems - 1 := by
    simp only [queue.Pop, if_neg hne']
  have hpopi : (q.Pop nilv).2.popi = (q.popi + 1) % (q.elems.set q.popi nilv).length := by
    simp only [queue.Pop, if_neg hne']
  have hpushi : (q.Pop nilv).2.pushi = q.pushi := by
    simp only [queue.Pop, if_neg hne']
  have hlen : (q.Pop nilv).2.elems.length = q.elems.length := by
    rw [helems, List.length_set]
  have hheadD : (q.toList nilv).headD nilv = q.elems.getD q.popi nilv := by
    unfold queue.toList
    obtain ⟨k, hk⟩ : ∃ k, q.nelems = k + 1 := ⟨q.nelems - 1, by omega⟩
    rw [hk, List.range_succ_eq_map]
    simp only [List.map_cons, List.headD_cons]
    rw [Nat.add_zero, Nat.mod_eq_of_lt hpop]
  refine ⟨by rw [hfst, hheadD], ⟨?_, ?_, ?_⟩, ?_, ?_, hlen⟩
  · rw [hnel, hlen]; omega
  · rw [hlen]; omega
  · intro _
    rw [hpopi, hpushi, hnel, hlen, List.length_set]
    refine ⟨Nat.mod_lt _ hlpos, ?_⟩
    rw [hpush, Nat.mod_add_mod]
    congr 1
    omega
  · -- remaining content is the tail
    unfold queue.toList
    rw [hnel, hpopi, helems, List.length_set]
    obtain ⟨k, hk⟩ : ∃ k, q.nelems = k + 1 := ⟨q.nelems - 1, by omega⟩
    rw [hk]
    simp only [Nat.add_sub_cancel]
    rw [List.range_succ_eq_map, List.map_cons, List.tail_cons, List.map_map]
    apply List.map_congr_left
    intro i hi
    rw [List.mem_range] at hi
    have hidx : ((q.popi + 1) % q.elems.length + i) % q.elems.length
        = (q.popi + (1 + i)) % q.elems.length := by
      rw [Nat.mod_add_mod, Nat.add_assoc]
    rw [hidx]
    have hne2 : q.popi ≠ (q.popi + (1 + i)) % q.elems.length := by
      intro hcon
      have hcon' : (q.popi + 0) % q.elems.length
          = (q.popi + (1 + i)) % q.elems.length := by
        rw [Nat.add_zero, Nat.mod_eq_of_lt hpop]; exact hcon
      have := mod_shift_inj (p := q.popi) (by omega : 0 < q.elems.length)
        (by omega : 1 + i < q.elems.length) hcon'
      omega
    rw [getD_set_ne hne2]
    simp only [Function.comp, Nat.succ_eq_add_one]
    congr 2
    omega
  · rw [helems, getD_set_eq hpop]

theorem queue.peek_empty {α : Type} (nilv : α) (q : queue α)
    (h : q.nelems = 0) : q.Peek nilv = nilv := by
  simp [queue.Peek, h]

theorem queue.peek_spec {α : Type} (nilv : α) (q : queue α)
    (hwf : q.wf) (hne : 0 < q.nelems) :
    q.Peek nilv = (q.toList nilv).headD nilv := by
  have h := (queue.pop_spec nilv q hwf hne).1
  have h2 : (q.Pop nilv).1 = q.Peek nilv := by
    have hne' : ¬q.nelems = 0 := by omega
    simp [queue.Pop, queue.Peek, if_neg hne']
  rw [← h2, h]

/-- Pushing a whole list (the `for _, v := range data` loop of cursor.go:180-182
and the batch loop of `extend`, cursor.go:357-359). -/
theorem queue.pushList_spec {α : Type} (nilv : α) (vs : List α) (q : queue α)
    (hwf : q.wf) :
    (vs.foldl (queue.Push nilv) q).wf
    ∧ (vs.foldl (queue.Push nilv) q).toList nilv = q.toList nilv ++ vs := by
  induction vs generalizing q with
  | nil => exact ⟨hwf, by simp⟩
  | cons v vs ih =>
    obtain ⟨w1, w2, _⟩ := queue.push_spec nilv q v hwf
    obtain ⟨i1, i2⟩ := ih (q.Push nilv v) w1
    refine ⟨i1, ?_⟩
    simp only [List.foldl_cons]
    rw [i2, w2, List.append_assoc, List.singleton_append]

/-- Repeatedly popping: the list of values returned by `n` successive `Pop`
calls. -/
def queue.popAll {α : Type} (nilv : α) : Nat → queue α → List α
  | 0, _ => []
  | n + 1, q => (q.Pop nilv).1 :: queue.popAll nilv n (q.Pop nilv).2

/-- Draining a well-formed queue by `Len` pops returns exactly the logical
FIFO content. -/
theorem queue.popAll_toList {α : Type} (nilv : α) :
    ∀ (n : Nat) (q : queue α), q.wf → q.nelems = n →
      queue.popAll nilv n q = q.toList nilv := by
  intro n
  induction n with
  | zero =>
    intro q _ hn
    have := queue.length_toList nilv q
    rw [hn] at this
    exact (List.eq_nil_of_length_eq_zero this).symm
  | succ k ih =>
    intro q hwf hn
    obtain ⟨h1, h2, h3, _, _⟩ := queue.pop_spec nilv q hwf (by omega)
    have hlen2 : (q.Pop nilv).2.nelems = k := by
      have := queue.length_toList nilv (q.Pop nilv).2
      rw [h3] at this
      have hl := queue.length_toList nilv q
      simp [List.length_tail] at this
      omega
    simp only [queue.popAll]
    rw [ih (q.Pop nilv).2 h2 hlen2, h1, h3]
    cases hc : q.toList nilv with
    | nil =>
      have := queue.length_toList nilv q
      rw [hc] at this
      simp at this
      omega
    | cons a t => simp

/- ------------------------------------------------------------------
   Claims C6 and C7: the queue component.
   ------------------------------------------------------------------ -/

theorem foldl_set_shift {α : Type} (nilv : α) (idxs : List Nat) (x : α) :
    ∀ t : List α,
      (idxs.map Nat.succ).foldl (fun a i => a.set i nilv) (x :: t)
        = x :: idxs.foldl (fun a i => a.set i nilv) t := by
  induction idxs with
  | nil => intro t; rfl
  | cons i is ih =>
    intro t
    simp only [List.map_cons, List.foldl_cons, List.set_cons_succ]
    exact ih _

/-- The loop `for i := range q.elems { q.elems[i] = nil }` turns the old
backing array into all-`nil` slots. -/
theorem clear_loop_replicate {α : Type} (nilv : α) :
    ∀ l : List α,
      (List.range l.length).foldl (fun a i => a.set i nilv) l
        = List.replicate l.length nilv := by
  intro l
  induction l with
  | nil => rfl
  | cons a t ih =>
    simp only [List.length_cons, List.range_succ_eq_map, List.foldl_cons,
      List.set_cons_zero]
    rw [foldl_set_shift, ih, List.replicate_succ]

/-- C6: `expand()` reallocates to the next capacity tier (8 when capacity is
0, double below 1024, otherwise capacity plus a quarter), preserves the
logical FIFO order across the wrapped circular layout — the values returned
by subsequent `Pop` calls are unchanged — and every slot of the old backing
array is cleared. -/
theorem C6_expand_next_tier_preserves_fifo {α : Type} (nilv : α) (q : queue α)
    (hwf : q.wf) (hfull : q.nelems = q.elems.length) :
    (q.expand nilv).elems.length = nextCap q.elems.length
    ∧ queue.popAll nilv q.Len (q.expand nilv) = queue.popAll nilv q.Len q
    ∧ q.expandClearedOld nilv = List.replicate q.elems.length nilv := by
  obtain ⟨hw, ht, hn, hlen, _⟩ := queue.expand_spec nilv q hwf hfull
  refine ⟨hlen, ?_, clear_loop_replicate nilv q.elems⟩
  rw [queue.popAll_toList nilv q.Len (q.expand nilv) hw hn,
    queue.popAll_toList nilv q.Len q hwf rfl, ht]

theorem C6_witness :
    ((⟨[3, 4, 1, 2], 4, 2, 2⟩ : queue Nat).expand 0).elems.length = nextCap 4
    ∧ queue.popAll 0 4 ((⟨[3, 4, 1, 2], 4, 2, 2⟩ : queue Nat).expand 0)
        = queue.popAll 0 4 (⟨[3, 4, 1, 2], 4, 2, 2⟩ : queue Nat)
    ∧ (⟨[3, 4, 1, 2], 4, 2, 2⟩ : queue Nat).expandClearedOld 0
        = List.replicate 4 0 :=
  C6_expand_next_tier_preserves_fifo 0 ⟨[3, 4, 1, 2], 4, 2, 2⟩
    (by decide) (by decide)

/-- One abstract queue operation, matching the public surface `Push`, `Pop`,
`Peek` (`Len` is a pure observation and mutates nothing). -/
inductive QOp (α : Type) where
  | push (v : α)
  | pop
  | peek

def applyOp {α : Type} (nilv : α) (q : queue α) : QOp α → queue α
  | .push v => q.Push nilv v
  | .pop => (q.Pop nilv).2
  | .peek => q

def runOps {α : Type} (nilv : α) (ops : List (QOp α)) : queue α :=
  ops.foldl (applyOp nilv) queue.mk0

/-- Reference model: the list of elements pushed and not yet popped. -/
def modelStep {α : Type} (l : List α) : QOp α → List α
  | .push v => l ++ [v]
  | .pop => l.tail
  | .peek => l

def modelOps {α : Type} (ops : List (QOp α)) : List α :=
  ops.foldl modelStep []

theorem runOps_inv {α : Type} (nilv : α) (ops : List (QOp α)) :
    (runOps nilv ops).wf ∧ (runOps nilv ops).toList nilv = modelOps ops := by
  suffices h : ∀ q : queue α, ∀ l : List α, q.wf → q.toList nilv = l →
      (ops.foldl (applyOp nilv) q).wf
      ∧ (ops.foldl (applyOp nilv) q).toList nilv = ops.foldl modelStep l by
    exact h queue.mk0 [] queue.wf_mk0 (queue.toList_mk0 nilv)
  induction ops with
  | nil => intro q l hw htl; exact ⟨hw, htl⟩
  | cons op ops ih =>
    intro q l hw htl
    simp only [List.foldl_cons]
    have step : (applyOp nilv q op).wf
        ∧ (applyOp nilv q op).toList nilv = modelStep l op := by
      cases op with
      | push v =>
        obtain ⟨w1, w2, _⟩ := queue.push_spec nilv q v hw
        refine ⟨w1, ?_⟩
        simp only [applyOp, modelStep]
        rw [w2, htl]
      | pop =>
        by_cases h0 : q.nelems = 0
        · have hl : l = [] := by
            have hlt := queue.length_toList nilv q
            rw [htl, h0] at hlt
            exact List.eq_nil_of_length_eq_zero hlt
          simp only [applyOp, modelStep, queue.pop_empty nilv q h0, hl]
          exact ⟨hw, by rw [htl, hl, List.tail_nil]⟩
        · obtain ⟨_, w2, w3, _, _⟩ := queue.pop_spec nilv q hw (by omega)
          refine ⟨w2, ?_⟩
          simp only [applyOp, modelStep]
          rw [w3, htl]
      | peek => exact ⟨hw, htl⟩
    exact ih _ _ step.1 step.2

theorem applyOp_cap_mono {α : Type} (nilv : α) (q : queue α) (hw : q.wf)
    (op : QOp α) : q.elems.length ≤ (applyOp nilv q op).elems.length := by
  cases op with
  | push v => exact (queue.push_spec nilv q v hw).2.2
  | pop =>
    by_cases h0 : q.nelems = 0
    · simp [applyOp, queue.pop_empty nilv q h0]
    · have := (queue.pop_spec nilv q hw (by omega)).2.2.2.2
      simp only [applyOp]
      omega
  | peek => exact Nat.le_refl _

/-- C7: over every sequence of `Push`/`Pop`/`Peek` operations from the empty
queue, `Len` equals the number of elements pushed and not yet popped, `Pop`
on an empty queue returns the `nil` sentinel and leaves the queue unchanged,
a successful `Pop` clears the vacated slot, and the capacity never
decreases across any operation. -/
theorem C7_queue_len_pop_capacity {α : Type} (nilv : α) (ops : List (QOp α)) :
    (runOps nilv ops).Len = (modelOps ops).length
    ∧ (modelOps ops = [] → (runOps nilv ops).Pop nilv = (nilv, runOps nilv ops))
    ∧ (modelOps ops ≠ [] →
        ((runOps nilv ops).Pop nilv).2.elems.getD (runOps nilv ops).popi nilv
          = nilv)
    ∧ ∀ op : QOp α,
        (runOps nilv ops).elems.length
          ≤ (runOps nilv (ops ++ [op])).elems.length := by
  obtain ⟨hw, htl⟩ := runOps_inv nilv ops
  have hlen := queue.length_toList nilv (runOps nilv ops)
  rw [htl] at hlen
  refine ⟨hlen.symm, ?_, ?_, ?_⟩
  · intro h
    apply queue.pop_empty
    rw [h] at hlen
    simpa using hlen.symm
  · intro h
    have hpos : 0 < (runOps nilv ops).nelems := by
      rcases List.exists_cons_of_ne_nil h with ⟨a, t, he⟩
      rw [he] at hlen
      simp at hlen
      omega
    exact (queue.pop_spec nilv (runOps nilv ops) hw hpos).2.2.2.1
  · intro op
    have hr : runOps nilv (ops ++ [op]) = applyOp nilv (runOps nilv ops) op := by
      simp [runOps, List.foldl_append]
    rw [hr]
    exact applyOp_cap_mono nilv (runOps nilv ops) hw op

theorem C7_witness :
    (runOps 0 [QOp.push 5, QOp.push 6, QOp.pop]).Len = 1
    ∧ ((runOps 0 [QOp.push 5, QOp.push 6, QOp.pop]).Pop 0).2.elems.getD
        (runOps 0 [QOp.push 5, QOp.push 6, QOp.pop]).popi 0 = 0 := by
  have h := C7_queue_len_pop_capacity 0 [QOp.push 5, QOp.push 6, QOp.pop]
  exact ⟨h.1.trans (by decide), h.2.2.1 (by decide)⟩

/- ------------------------------------------------------------------
   The cursor state machine (cursor.go:18-368).
   ------------------------------------------------------------------ -/

/-- The connection handle: `connPresent` says whether the inner `conn.conn`
(the transport) is non-nil (checked at cursor.go:95). -/
structure Conn where
  connPresent : Bool
deriving DecidableEq

/-- The `Cursor` struct (cursor.go:42-60).  The pool pointer, query term,
options and profile play no part in the claims; the options are baked into
the pseudotype-converter parameter `cv` of `loadNext`. -/
structure Cursor where
  conn : Option Conn
  token : Int
  lastErr : Option Err
  fetching : Bool
  closed : Bool
  finished : Bool
  buffer : queue Value
  responses : queue RawBatch

/-- Server reply types (`ql2.Response_ResponseType`): `succMore` models
SUCCESS_PARTIAL and `successFeed` models SUCCESS_FEED; the remaining two are
terminal reply kinds. -/
inductive RType where
  | successAtom
  | successSequence
  | succMore
  | successFeed
deriving DecidableEq

/-- One decoded server envelope: its type and its list of raw row batches
(`Response.Responses`, each a `json.RawMessage`). -/
structure Response where
  rtype : RType
  responses : List String
deriving DecidableEq

/-- What the connection delivers for one CONTINUE request: a decoded envelope
or a transport error from `conn.Query`. -/
inductive NetReply where
  | ok (r : Response)
  | fail (e : Err)
deriving DecidableEq

/-- Observable interactions with the collaborators. -/
inductive Event where
  | queryContinue (token : Int)
  | queryStop (token : Int)
  | spawnFetch
  | release (err : Option Err)
deriving DecidableEq

/-- The cursor together with its environment: the scripted replies the
connection will deliver for CONTINUE requests, the outcome the connection
returns for a STOP request, and the log of collaborator interactions. -/
structure Sys where
  c : Cursor
  pending : List NetReply
  stopErr : Option Err
  events : List Event

/-- `Cursor.handleError` (cursor.go:340-350), faithfully including the
guard exactly as written: `if c.lastErr != nil { c.lastErr = err }`. -/
def Cursor.handleError (c : Cursor) (err : Option Err) : Option Err × Cursor :=
  let c := if c.lastErr.isSome then { c with lastErr := err } else c
  (c.lastErr, c)

/-- `Cursor.Err` (cursor.go:72-77). -/
def CursorErr (c : Cursor) : Option Err := c.lastErr

/-- `newCursor` (cursor.go:18-27). -/
def newCursor (conn : Option Conn) (token : Int) : Cursor :=
  { conn := conn, token := token, lastErr := none, fetching := false,
    closed := false, finished := false, buffer := queue.mk0,
    responses := queue.mk0 }

/-- `Cursor.extend` (cursor.go:353-368).  The spawned `go c.fetchMore()` is
recorded as a `spawnFetch` event: its network effect is the delivery of the
next scripted reply, and the safety of such concurrent spawns is the subject
of the fetch-gate transition system below. -/
def Sys.extend (s : Sys) (response : Response) : Sys :=
  let c := s.c
  let nr := response.responses.foldl
    (fun q m => q.Push RawBatch.rawNil (RawBatch.msg m)) c.responses
  let c := { c with responses := nr }
  let fin := response.rtype != RType.succMore
    && response.rtype != RType.successFeed
  let c := { c with finished := fin, fetching := false }
  let evs := if c.responses.Len == 1 && !c.finished then
      s.events ++ [Event.spawnFetch]
    else s.events
  { s with c := c, events := evs }

/-- `Cursor.fetchMore` (cursor.go:320-338).  The connection collaborator is
modelled from the spec: `conn.Query(CONTINUE, token)` sends the request and
the connection's reply-dispatch path feeds the decoded envelope into
`extend` before `Query` returns; here the reply is taken from the `pending`
script.  An empty script leaves the request outstanding. -/
def fetchMore (s : Sys) : Option Err × Sys :=
  if s.c.fetching then (none, s)
  else
    let s := { s with c := { s.c with fetching := true },
                      events := s.events ++ [Event.queryContinue s.c.token] }
    match s.pending with
    | [] => (none, s)
    | NetReply.ok r :: rest =>
      let s := Sys.extend { s with pending := rest } r
      let hc := s.c.handleError none
      (none, { s with c := hc.2 })
    | NetReply.fail e :: rest =>
      let s := { s with pending := rest }
      let hc := s.c.handleError (some e)
      (some e, { s with c := hc.2 })

/-- The loop condition of `loadNext`'s head loop (cursor.go:143). -/
def loopCond (s : Sys) : Bool :=
  decide (s.c.lastErr = none) && s.c.buffer.Len == 0
    && s.c.responses.Len == 0 && !s.c.finished

/-- The `for` loop at the head of `loadNext` (cursor.go:143-155), with a fuel
bound standing in for the unbounded iteration; `fuelExhausted` marks the
cut-off and is never reached in the scenarios proved below. -/
def loadNextLoop : Nat → Sys → Option Err × Sys
  | 0, s =>
    if loopCond s then
      if s.c.closed then (some Err.cursorClosed, s)
      else (some Err.fuelExhausted, s)
    else (none, s)
  | fuel + 1, s =>
    if loopCond s then
      if s.c.closed then (some Err.cursorClosed, s)
      else
        match fetchMore s with
        | (some e, s') => (some e, s')
        | (none, s') => loadNextLoop fuel s'
    else (none, s)

/-- The value-to-rows push block of `loadNext` (cursor.go:179-187): a
sequence pushes every element in order, exactly `nil` pushes one `nil`
marker, anything else pushes the single value. -/
def bufferBatchValue (buf : queue Value) (value : Value) : queue Value :=
  match value with
  | Value.varr data => data.foldl (fun b v => b.Push Value.vnull v) buf
  | Value.vnull => buf.Push Value.vnull Value.vnull
  | v => buf.Push Value.vnull v

/-- Rows contributed by one decoded batch value, as the spec words it. -/
def rowsOf : Value → List Value
  | Value.varr data => data
  | Value.vnull => [Value.vnull]
  | v => [v]

structure LoadRes where
  hasMore : Bool
  err : Option Err
  dest : Option Value
  sys : Sys

/-- The raw-batch decode block of `loadNext` (cursor.go:162-189): when the
row buffer is empty and a raw batch is queued, pop it, unmarshal it (`u`),
normalize pseudotypes (`cv`) and push the resulting rows; errors are run
through `handleError` and returned. -/
def loadNextDecode (u : String → Except Err Value)
    (cv : Value → Except Err Value) (s : Sys) : Except (Err × Sys) Sys :=
  if s.c.buffer.Len = 0 ∧ s.c.responses.Len > 0 then
    let pr := s.c.responses.Pop RawBatch.rawNil
    let s := { s with c := { s.c with responses := pr.2 } }
    match pr.1 with
    | RawBatch.rawNil => Except.ok s
    | RawBatch.msg m =>
      match u m with
      | Except.error e =>
        let hc := s.c.handleError (some e)
        Except.error (e, { s with c := hc.2 })
      | Except.ok value =>
        match cv value with
        | Except.error e =>
          let hc := s.c.handleError (some e)
          Except.error (e, { s with c := hc.2 })
        | Except.ok value =>
          Except.ok
            { s with c :=
              { s.c with buffer := bufferBatchValue s.c.buffer value } }
  else Except.ok s

/-- The prefetch check and row-yield tail of `loadNext` (cursor.go:191-211):
spawn a background fetch when exactly one raw batch remains and the stream
is unfinished, then pop one buffered row and decode it into the
destination. -/
def loadNextYield (dd : Value → Option Err) (s : Sys) : LoadRes :=
  let s := if s.c.responses.Len = 1 ∧ s.c.finished = false then
      { s with events := s.events ++ [Event.spawnFetch] }
    else s
  if s.c.buffer.Len = 0 then ⟨false, none, none, s⟩
  else
    let pb := s.c.buffer.Pop Value.vnull
    let s := { s with c := { s.c with buffer := pb.2 } }
    match dd pb.1 with
    | some e =>
      let hc := s.c.handleError (some e)
      ⟨false, some e, none, { s with c := hc.2 }⟩
    | none => ⟨true, none, some pb.1, s⟩

/-- `Cursor.loadNext` (cursor.go:139-211).  `u` is `json.Unmarshal`, `cv` is
`recursivelyConvertPseudotype(·, c.opts)`, and `dd` gives the outcome of
`encoding.Decode(dest, ·)` for the caller's destination; the `dest` field of
the result records the value written into that destination, if any. -/
def loadNext (dd : Value → Option Err) (u : String → Except Err Value)
    (cv : Value → Except Err Value) (fuel : Nat) (s : Sys) : LoadRes :=
  match loadNextLoop fuel s with
  | (some e, s) => ⟨false, some e, none, s⟩
  | (none, s) =>
    if s.c.buffer.Len = 0 ∧ s.c.responses.Len = 0 ∧ s.c.finished then
      ⟨false, none, none, s⟩
    else
      match loadNextDecode u cv s with
      | Except.error (e, s) => ⟨false, some e, none, s⟩
      | Except.ok s => loadNextYield dd s

/-- `Cursor.Close` (cursor.go:81-114). `s.stopErr` is the outcome the
connection collaborator returns for the STOP query. -/
def Close (s : Sys) : Option Err × Sys :=
  if s.c.closed then (none, s)
  else
    match s.c.conn with
    | none => (none, s)
    | some conn =>
      if conn.connPresent = false then (none, s)
      else
        let es :=
          if s.c.closed = false ∧ s.c.finished = false then
            (s.stopErr,
              { s with events := s.events ++ [Event.queryStop s.c.token] })
          else (none, s)
        let s2 := { es.2 with c := { es.2.c with closed := true, conn := none } }
        (es.1, { s2 with events := s2.events ++ [Event.release es.1] })

structure NextRes where
  ok : Bool
  dest : Option Value
  sys : Sys

/-- `Cursor.Next` (cursor.go:125-137); `dest` records the value decoded into
the caller's destination, if any. -/
def Next (dd : Value → Option Err) (u : String → Except Err Value)
    (cv : Value → Except Err Value) (fuel : Nat) (s : Sys) : NextRes :=
  if s.c.closed then ⟨false, none, s⟩
  else
    let r := loadNext dd u cv fuel s
    let hc := r.sys.c.handleError r.err
    let s := { r.sys with c := hc.2 }
    match hc.1 with
    | some _ => ⟨false, r.dest, (Close s).2⟩
    | none => ⟨r.hasMore, r.dest, s⟩

/-- `Cursor.IsNil` (cursor.go:282-314); the source checks the buffered head
against nil twice, which collapses to one check here. -/
def Cursor.IsNil (c : Cursor) : Bool :=
  if c.buffer.Len > 0 then
    match c.buffer.Peek Value.vnull with
    | Value.vnull => true
    | _ => false
  else if c.responses.Len > 0 then
    match c.responses.Peek RawBatch.rawNil with
    | RawBatch.rawNil => true
    | RawBatch.msg m => m == "null"
  else true

/-- `Cursor.One` (cursor.go:258-279). -/
def OneRow (dd : Value → Option Err) (u : String → Except Err Value)
    (cv : Value → Except Err Value) (fuel : Nat) (s : Sys) : Option Err × Sys :=
  if s.c.IsNil then (some Err.emptyResult, s)
  else
    let r := Next dd u cv fuel s
    match CursorErr r.sys.c with
    | some e => (some e, (Close r.sys).2)
    | none =>
      match Close r.sys with
      | (some e, s') => (some e, s')
      | (none, s') =>
        if r.ok = false then (some Err.emptyResult, s') else (none, s')

def initSys (conn : Option Conn) (token : Int) (pending : List NetReply)
    (stopErr : Option Err) : Sys :=
  ⟨newCursor conn token, pending, stopErr, []⟩

/-- Deliver a list of server replies through `extend`, in order. -/
def extendAll (s : Sys) (replies : List Response) : Sys :=
  replies.foldl Sys.extend s

/-- `encoding.Decode` into a generic `*interface{}` destination never
fails. -/
def genericDest : Value → Option Err := fun _ => none

/-- Drain the cursor: call `Next` up to `n` times with a generic destination,
collecting the decoded values, stopping at the first `false`. -/
def drain (dd : Value → Option Err) (u : String → Except Err Value)
    (cv : Value → Except Err Value) (loopFuel : Nat) :
    Nat → Sys → List Value × Sys
  | 0, s => ([], s)
  | n + 1, s =>
    let r := Next dd u cv loopFuel s
    if r.ok then
      let rest := drain dd u cv loopFuel n r.sys
      ((r.dest.getD Value.vnull) :: rest.1, rest.2)
    else ([], r.sys)

/- ------------------------------------------------------------------
   Claims C1, C2: the handleError defect and its effect on Next.
   ------------------------------------------------------------------ -/

/-- C1: the claim says the first error observed is recorded in `lastErr` and
is sticky.  The source's guard is inverted (`if c.lastErr != nil` instead of
`== nil`, cursor.go:345, contradicting its own doc comment): on a fresh
cursor the first error is dropped (`lastErr` stays nil and `handleError`
returns nil), and when an error is already recorded a later call replaces
it.  This theorem evaluates the code at those failing inputs. -/
theorem C1_handleError_drops_first_error :
    ((newCursor (some ⟨true⟩) 7).handleError (some (Err.external "boom"))).1 = none
    ∧ ((newCursor (some ⟨true⟩) 7).handleError
        (some (Err.external "boom"))).2.lastErr = none
    ∧ ({ newCursor (some ⟨true⟩) 7 with
          lastErr := some (Err.external "first") }.handleError
        (some (Err.external "second"))).2.lastErr
        = some (Err.external "second") :=
  ⟨rfl, rfl, rfl⟩

def uBad : String → Except Err Value :=
  fun _ => Except.error (Err.external "bad json")

def cvId : Value → Except Err Value := fun v => Except.ok v

/-- A cursor holding one raw batch whose JSON does not unmarshal. -/
def s2bug : Sys :=
  Sys.extend (initSys (some ⟨true⟩) 7 [] none) ⟨RType.succMore, ["x"]⟩

/-- C2: the claim says any error surfaced by `loadNext` closes the cursor
before `Next` returns.  Because `handleError` never records a first error
(C1), `Next`'s `handleError(err) != nil` test is false and `Close` is never
called: at this failing input `loadNext` surfaces an unmarshal error, `Next`
returns false, yet the cursor is left open (`closed` stays false, no release
callback is invoked). -/
theorem C2_error_does_not_close :
    (loadNext genericDest uBad cvId 0 s2bug).err = some (Err.external "bad json")
    ∧ (Next genericDest uBad cvId 0 s2bug).ok = false
    ∧ (Next genericDest uBad cvId 0 s2bug).sys.c.closed = false
    ∧ (Next genericDest uBad cvId 0 s2bug).sys.events = [Event.spawnFetch] :=
  ⟨rfl, rfl, rfl, rfl⟩

/- ------------------------------------------------------------------
   Claims C9, C10, C5: IsNil / One short-circuit and Close.
   ------------------------------------------------------------------ -/

/-- C9: whenever both the decoded-row buffer and the raw-batch queue are
empty — whatever the rest of the cursor state, including a fresh cursor with
an unfinished stream — `IsNil` returns true, and `One` returns the
empty-result error immediately with the whole system state (cursor,
pending replies, event log) untouched: no fetch, no `Next`, no `Close`, no
release callback. -/
theorem C9_one_empty_immediate (dd : Value → Option Err)
    (u : String → Except Err Value) (cv : Value → Except Err Value)
    (fuel : Nat) (s : Sys)
    (hb : s.c.buffer.Len = 0) (hr : s.c.responses.Len = 0) :
    s.c.IsNil = true ∧ OneRow dd u cv fuel s = (some Err.emptyResult, s) := by
  have hn : s.c.IsNil = true := by
    simp [Cursor.IsNil, hb, hr]
  exact ⟨hn, by simp [OneRow, hn]⟩

theorem C9_witness :
    (initSys (some ⟨true⟩) 1 [] none).c.IsNil = true
    ∧ OneRow genericDest uBad cvId 0 (initSys (some ⟨true⟩) 1 [] none)
        = (some Err.emptyResult, initSys (some ⟨true⟩) 1 [] none) :=
  C9_one_empty_immediate genericDest uBad cvId 0 _ rfl rfl

/-- C10: on a cursor that is not marked closed and whose connection handle
is absent (`conn` nil, or its inner transport nil), `Close` returns nil
without mutating anything — no closed flag, no detach, no release callback —
and a subsequent `Next` therefore behaves exactly as on the original
state. -/
theorem C10_close_absent_conn_noop (s : Sys) (hnc : s.c.closed = false)
    (habs : s.c.conn = none
      ∨ ∃ cn, s.c.conn = some cn ∧ cn.connPresent = false) :
    Close s = (none, s)
    ∧ (Close s).2.c.closed = false
    ∧ ∀ (dd : Value → Option Err) (u : String → Except Err Value)
        (cv : Value → Except Err Value) (fuel : Nat),
        Next dd u cv fuel (Close s).2 = Next dd u cv fuel s := by
  have h1 : Close s = (none, s) := by
    rcases habs with h | ⟨cn, hcn, hcp⟩
    · simp [Close, hnc, h]
    · simp [Close, hnc, hcn, hcp]
  refine ⟨h1, ?_, ?_⟩
  · rw [h1]; exact hnc
  · intro dd u cv fuel; rw [h1]

theorem C10_witness :
    Close (initSys none 3 [] none) = (none, initSys none 3 [] none)
    ∧ (Close (initSys none 3 [] none)).2.c.closed = false :=
  have h := C10_close_absent_conn_noop (initSys none 3 [] none) rfl (Or.inl rfl)
  ⟨h.1, h.2.1⟩

/-- C5 counterexample: the claim quantifies over every cursor, but on a
cursor whose connection handle is absent the first `Close` returns nil
WITHOUT marking the cursor closed — so "the first Close marks it closed"
fails at this concrete input. -/
theorem C5_counterexample :
    (Close (initSys none 3 [] none)).1 = none
    ∧ (Close (initSys none 3 [] none)).2.c.closed = false :=
  ⟨rfl, rfl⟩

/-- C5 (amended to cursors whose connection handle is present): the first
`Close` marks the cursor closed and detaches the connection; when the stream
is unfinished it issues exactly one STOP and returns the connection's stop
error (which never prevents the close, and is passed to the single release
callback); when the stream is finished it issues no STOP and returns nil;
and every later `Close` returns nil, changes nothing, and issues no further
STOP. -/
theorem C5_close_idempotent (s : Sys) (cn : Conn) (hconn : s.c.conn = some cn)
    (hin : cn.connPresent = true) (hnc : s.c.closed = false) :
    (Close s).2.c.closed = true
    ∧ (Close s).2.c.conn = none
    ∧ (s.c.finished = false →
        (Close s).1 = s.stopErr
        ∧ (Close s).2.events
            = s.events ++ [Event.queryStop s.c.token, Event.release s.stopErr])
    ∧ (s.c.finished = true →
        (Close s).1 = none
        ∧ (Close s).2.events = s.events ++ [Event.release none])
    ∧ Close (Close s).2 = (none, (Close s).2) := by
  refine ⟨?_, ?_, ?_, ?_, ?_⟩
  · simp [Close, hconn, hin, hnc]
  · simp [Close, hconn, hin, hnc]
  · intro hf
    constructor
    · simp [Close, hconn, hin, hnc, hf]
    · simp [Close, hconn, hin, hnc, hf]
  · intro hf
    constructor
    · simp [Close, hconn, hin, hnc, hf]
    · simp [Close, hconn, hin, hnc, hf]
  · have hcl : (Close s).2.c.closed = true := by
      simp [Close, hconn, hin, hnc]
    have hgen : ∀ s' : Sys, s'.c.closed = true → Close s' = (none, s') := by
      intro s' h
      simp [Close, h]
    exact hgen _ hcl

def sC5 : Sys := initSys (some ⟨true⟩) 5 [] (some (Err.external "stop failed"))

theorem C5_witness :
    (Close sC5).2.c.closed = true
    ∧ (Close sC5).1 = some (Err.external "stop failed")
    ∧ Close (Close sC5).2 = (none, (Close sC5).2) := by
  have h := C5_close_idempotent sC5 ⟨true⟩ rfl rfl rfl
  exact ⟨h.1, (h.2.2.1 rfl).1, h.2.2.2.2⟩

/- ------------------------------------------------------------------
   Claim C8: the fetch gate.

   `fetchMore` (cursor.go:323) issues a CONTINUE request only when the
   atomic `CompareAndSwapInt32(&c.fetching, 0, 1)` wins, and `extend`
   (cursor.go:362) is the only place the flag is reset, after the reply to
   that request has been enqueued.  Atomicity of the CAS and of the store
   makes each of them a single step of a transition system; replies are
   delivered only for requests actually in flight (the connection's
   dispatch is correlated by the cursor's token, per the spec's connection
   contract).  `attemptFetch` covers both the blocking foreground call in
   `loadNext` and every spawned background prefetch.
   ------------------------------------------------------------------ -/

/-- The fetch gate state: the atomic `fetching` flag and the number of
CONTINUE requests issued but not yet processed by `extend`. -/
structure FetchState where
  fetching : Bool
  inflight : Nat
deriving DecidableEq

inductive FetchEv where
  | attemptFetch
  | deliverReply
deriving DecidableEq

/-- One step: `attemptFetch` is a `fetchMore` call (its CAS wins exactly
when the flag is down, and only then is a CONTINUE issued); `deliverReply`
is the arrival of a reply to an outstanding request, processed by `extend`,
which clears the flag. -/
def fetchStep (st : FetchState) : FetchEv → FetchState
  | FetchEv.attemptFetch =>
    if st.fetching then st
    else { fetching := true, inflight := st.inflight + 1 }
  | FetchEv.deliverReply =>
    if st.inflight = 0 then st
    else { fetching := false, inflight := st.inflight - 1 }

def fetchRun (evs : List FetchEv) : FetchState :=
  evs.foldl fetchStep ⟨false, 0⟩

/-- C8: along every interleaving of foreground fetches, background
prefetches and reply deliveries, at most one CONTINUE request is ever in
flight: the compare-and-swap gate never lets a second fetch go out before
`extend` clears the flag. -/
theorem C8_at_most_one_continue_in_flight (evs : List FetchEv) :
    (fetchRun evs).inflight ≤ 1 := by
  suffices h : ∀ st : FetchState,
      st.inflight = (if st.fetching then 1 else 0) →
      (evs.foldl fetchStep st).inflight
        = (if (evs.foldl fetchStep st).fetching then 1 else 0) by
    have h0 := h ⟨false, 0⟩ (by simp)
    have : fetchRun evs = evs.foldl fetchStep ⟨false, 0⟩ := rfl
    rw [this, h0]
    split <;> omega
  induction evs with
  | nil => intro st hst; exact hst
  | cons e es ih =>
    intro st hst
    simp only [List.foldl_cons]
    apply ih
    cases e with
    | attemptFetch =>
      by_cases hf : st.fetching
      · simpa [fetchStep, hf] using hst
      · simp [fetchStep, hf] at hst ⊢
        omega
    | deliverReply =>
      by_cases hi : st.inflight = 0
      · simpa [fetchStep, hi] using hst
      · simp [fetchStep, hi]
        split at hst <;> omega

/- ------------------------------------------------------------------
   Symbolic step lemmas for Next, feeding claims C3 and C4.
   ------------------------------------------------------------------ -/

theorem queue.len_eq_of_toList {α : Type} (nilv : α) (q : queue α)
    (l : List α) (h : q.toList nilv = l) : q.Len = l.length := by
  have h2 := queue.length_toList nilv q
  rw [h] at h2
  exact h2.symm

theorem loadNextLoop_skip (fuel : Nat) (s : Sys) (h : loopCond s = false) :
    loadNextLoop fuel s = (none, s) := by
  cases fuel <;> simp [loadNextLoop, h]

theorem loadNext_end (dd : Value → Option Err) (u : String → Except Err Value)
    (cv : Value → Except Err Value) (fuel : Nat) (s : Sys)
    (hloop : loadNextLoop fuel s = (none, s))
    (hend : s.c.buffer.Len = 0 ∧ s.c.responses.Len = 0 ∧ s.c.finished = true) :
    loadNext dd u cv fuel s = ⟨false, none, none, s⟩ := by
  simp only [loadNext, hloop]
  rw [if_pos hend]

theorem loadNext_via (dd : Value → Option Err) (u : String → Except Err Value)
    (cv : Value → Except Err Value) (fuel : Nat) (s : Sys)
    (hloop : loadNextLoop fuel s = (none, s))
    (hnotend : ¬(s.c.buffer.Len = 0 ∧ s.c.responses.Len = 0
      ∧ s.c.finished = true)) :
    loadNext dd u cv fuel s
      = match loadNextDecode u cv s with
        | Except.error (e, s') => ⟨false, some e, none, s'⟩
        | Except.ok s' => loadNextYield dd s' := by
  simp only [loadNext, hloop]
  rw [if_neg hnotend]

theorem loadNextDecode_skip (u : String → Except Err Value)
    (cv : Value → Except Err Value) (s : Sys)
    (h : ¬(s.c.buffer.Len = 0 ∧ s.c.responses.Len > 0)) :
    loadNextDecode u cv s = Except.ok s := by
  simp only [loadNextDecode]
  rw [if_neg h]

theorem loadNextDecode_batch (u : String → Except Err Value)
    (cv : Value → Except Err Value) (s : Sys) (m : String)
    (rest : List RawBatch) (v w : Value)
    (hbl : s.c.buffer.Len = 0) (hrw : s.c.responses.wf)
    (hrt : s.c.responses.toList RawBatch.rawNil = RawBatch.msg m :: rest)
    (hu : u m = Except.ok v) (hcv : cv v = Except.ok w) :
    loadNextDecode u cv s
      = Except.ok { s with c := { s.c with
          responses := (s.c.responses.Pop RawBatch.rawNil).2,
          buffer := bufferBatchValue s.c.buffer w } } := by
  have hrl : s.c.responses.Len = rest.length + 1 := by
    have := queue.len_eq_of_toList RawBatch.rawNil s.c.responses _ hrt
    simpa using this
  have hnpos : 0 < s.c.responses.nelems := by
    have h2 := queue.length_toList RawBatch.rawNil s.c.responses
    rw [hrt] at h2
    simp at h2
    omega
  have hpop := queue.pop_spec RawBatch.rawNil s.c.responses hrw hnpos
  have hp1 : (s.c.responses.Pop RawBatch.rawNil).1 = RawBatch.msg m := by
    rw [hpop.1, hrt]
    rfl
  simp only [loadNextDecode]
  rw [if_pos (by exact ⟨hbl, by omega⟩)]
  simp only [hp1, hu, hcv]

theorem loadNextYield_empty (dd : Value → Option Err) (s : Sys)
    (hfin : s.c.finished = true) (hbl : s.c.buffer.Len = 0) :
    loadNextYield dd s = ⟨false, none, none, s⟩ := by
  simp [loadNextYield, hfin, hbl]

theorem loadNextYield_row (dd : Value → Option Err) (s : Sys) (b : Value)
    (bs : List Value) (hfin : s.c.finished = true) (hbw : s.c.buffer.wf)
    (hbt : s.c.buffer.toList Value.vnull = b :: bs) (hdd : dd b = none) :
    loadNextYield dd s
      = ⟨true, none, some b,
          { s with c := { s.c with buffer := (s.c.buffer.Pop Value.vnull).2 } }⟩ := by
  have hbl : s.c.buffer.Len = bs.length + 1 := by
    have := queue.len_eq_of_toList Value.vnull s.c.buffer _ hbt
    simpa using this
  have hnpos : 0 < s.c.buffer.nelems := by
    have h2 := queue.length_toList Value.vnull s.c.buffer
    rw [hbt] at h2
    simp at h2
    omega
  have hpop := queue.pop_spec Value.vnull s.c.buffer hbw hnpos
  have hp1 : (s.c.buffer.Pop Value.vnull).1 = b := by
    rw [hpop.1, hbt]
    rfl
  have hbne : ¬s.c.buffer.Len = 0 := by omega
  simp [loadNextYield, hfin, hbne, hp1, hdd]

/-- `Next` when the cursor is open and no error is recorded after `loadNext`:
because `handleError` returns the (unchanged, nil) `lastErr`, `Next` passes
the `loadNext` outcome straight through and never calls `Close`. -/
theorem Next_no_recorded_error (dd : Value → Option Err)
    (u : String → Except Err Value) (cv : Value → Except Err Value)
    (fuel : Nat) (s : Sys) (hcl : s.c.closed = false)
    (hle : (loadNext dd u cv fuel s).sys.c.lastErr = none) :
    Next dd u cv fuel s
      = ⟨(loadNext dd u cv fuel s).hasMore, (loadNext dd u cv fuel s).dest,
          (loadNext dd u cv fuel s).sys⟩ := by
  simp only [Next]
  rw [if_neg (by simp [hcl])]
  simp [Cursor.handleError, hle]

theorem bufferBatchValue_spec (q : queue Value) (hq : q.wf) (w : Value) :
    (bufferBatchValue q w).wf
    ∧ (bufferBatchValue q w).toList Value.vnull
        = q.toList Value.vnull ++ rowsOf w := by
  cases w with
  | varr data =>
    obtain ⟨h1, h2⟩ := queue.pushList_spec Value.vnull data q hq
    exact ⟨h1, h2⟩
  | vnull =>
    obtain ⟨h1, h2, _⟩ := queue.push_spec Value.vnull q Value.vnull hq
    exact ⟨h1, h2⟩
  | vbool b =>
    obtain ⟨h1, h2, _⟩ := queue.push_spec Value.vnull q (Value.vbool b) hq
    exact ⟨h1, h2⟩
  | vnum n =>
    obtain ⟨h1, h2, _⟩ := queue.push_spec Value.vnull q (Value.vnum n) hq
    exact ⟨h1, h2⟩
  | vstr t =>
    obtain ⟨h1, h2, _⟩ := queue.push_spec Value.vnull q (Value.vstr t) hq
    exact ⟨h1, h2⟩

/-- One `Next` on an open, error-free, finished stream with both queues
drained: end of stream, nothing changes. -/
theorem Next_end_step (dd : Value → Option Err) (u : String → Except Err Value)
    (cv : Value → Except Err Value) (fuel : Nat) (s : Sys)
    (hcl : s.c.closed = false) (hle : s.c.lastErr = none)
    (hfin : s.c.finished = true)
    (hbt : s.c.buffer.toList Value.vnull = [])
    (hrt : s.c.responses.toList RawBatch.rawNil = []) :
    Next dd u cv fuel s = ⟨false, none, s⟩ := by
  have hbl : s.c.buffer.Len = 0 := by
    simpa using queue.len_eq_of_toList Value.vnull s.c.buffer [] hbt
  have hrl : s.c.responses.Len = 0 := by
    simpa using queue.len_eq_of_toList RawBatch.rawNil s.c.responses [] hrt
  have hlc : loopCond s = false := by simp [loopCond, hfin]
  have hloop := loadNextLoop_skip fuel s hlc
  have hload := loadNext_end dd u cv fuel s hloop ⟨hbl, hrl, hfin⟩
  have hle2 : (loadNext dd u cv fuel s).sys.c.lastErr = none := by
    rw [hload]; exact hle
  rw [Next_no_recorded_error dd u cv fuel s hcl hle2, hload]

/-- One `Next` on an open, error-free, finished stream with a buffered row:
yields the row, pops it, touches nothing else. -/
theorem Next_buffer_step (dd : Value → Option Err)
    (u : String → Except Err Value) (cv : Value → Except Err Value)
    (fuel : Nat) (s : Sys) (b : Value) (bs : List Value)
    (hcl : s.c.closed = false) (hle : s.c.lastErr = none)
    (hfin : s.c.finished = true) (hbw : s.c.buffer.wf)
    (hbt : s.c.buffer.toList Value.vnull = b :: bs) (hdd : dd b = none) :
    Next dd u cv fuel s
      = ⟨true, some b,
          { s with c := { s.c with buffer := (s.c.buffer.Pop Value.vnull).2 } }⟩ := by
  have hbl : s.c.buffer.Len = bs.length + 1 := by
    have := queue.len_eq_of_toList Value.vnull s.c.buffer _ hbt
    simpa using this
  have hlc : loopCond s = false := by simp [loopCond, hbl]
  have hloop := loadNextLoop_skip fuel s hlc
  have hnotend : ¬(s.c.buffer.Len = 0 ∧ s.c.responses.Len = 0
      ∧ s.c.finished = true) := by simp [hbl]
  have hskip : loadNextDecode u cv s = Except.ok s :=
    loadNextDecode_skip u cv s (by simp [hbl])
  have hyield := loadNextYield_row dd s b bs hfin hbw hbt hdd
  have hload : loadNext dd u cv fuel s
      = ⟨true, none, some b,
          { s with c := { s.c with buffer := (s.c.buffer.Pop Value.vnull).2 } }⟩ := by
    rw [loadNext_via dd u cv fuel s hloop hnotend, hskip]
    exact hyield
  have hle2 : (loadNext dd u cv fuel s).sys.c.lastErr = none := by
    rw [hload]; exact hle
  rw [Next_no_recorded_error dd u cv fuel s hcl hle2, hload]

/-- One `Next` on an open, error-free, finished stream with an empty row
buffer and a queued raw batch that decodes to at least one row: yields the
first row of the batch. -/
theorem Next_batch_step (dd : Value → Option Err)
    (u : String → Except Err Value) (cv : Value → Except Err Value)
    (fuel : Nat) (s : Sys) (m : String) (rest : List RawBatch) (v w : Value)
    (hcl : s.c.closed = false) (hle : s.c.lastErr = none)
    (hfin : s.c.finished = true) (hbw : s.c.buffer.wf)
    (hbt : s.c.buffer.toList Value.vnull = [])
    (hrw : s.c.responses.wf)
    (hrt : s.c.responses.toList RawBatch.rawNil = RawBatch.msg m :: rest)
    (hu : u m = Except.ok v) (hcv : cv v = Except.ok w)
    (hrows : rowsOf w ≠ [])
    (hdd : dd ((rowsOf w).headD Value.vnull) = none) :
    Next dd u cv fuel s
      = ⟨true, some ((rowsOf w).headD Value.vnull),
          { s with c := { s.c with
              responses := (s.c.responses.Pop RawBatch.rawNil).2,
              buffer := ((bufferBatchValue s.c.buffer w).Pop Value.vnull).2 } }⟩ := by
  have hbl : s.c.buffer.Len = 0 := by
    simpa using queue.len_eq_of_toList Value.vnull s.c.buffer [] hbt
  have hrl : s.c.responses.Len = rest.length + 1 := by
    have := queue.len_eq_of_toList RawBatch.rawNil s.c.responses _ hrt
    simpa using this
  have hlc : loopCond s = false := by simp [loopCond, hrl]
  have hloop := loadNextLoop_skip fuel s hlc
  have hnotend : ¬(s.c.buffer.Len = 0 ∧ s.c.responses.Len = 0
      ∧ s.c.finished = true) := by simp [hrl]
  have hdec := loadNextDecode_batch u cv s m rest v w hbl hrw hrt hu hcv
  obtain ⟨hb, hbs, hrows_eq⟩ :
      ∃ hb hbs, rowsOf w = hb :: hbs := by
    rcases List.exists_cons_of_ne_nil hrows with ⟨hb, hbs, he⟩
    exact ⟨hb, hbs, he⟩
  obtain ⟨hwfB, htlB⟩ := bufferBatchValue_spec s.c.buffer hbw w
  set s1 : Sys := { s with c := { s.c with
      responses := (s.c.responses.Pop RawBatch.rawNil).2,
      buffer := bufferBatchValue s.c.buffer w } } with hs1
  have hfin1 : s1.c.finished = true := hfin
  have hbw1 : s1.c.buffer.wf := hwfB
  have hbt1 : s1.c.buffer.toList Value.vnull = hb :: hbs := by
    show (bufferBatchValue s.c.buffer w).toList Value.vnull = hb :: hbs
    rw [htlB, hbt, hrows_eq]
    rfl
  have hhead : (rowsOf w).headD Value.vnull = hb := by
    rw [hrows_eq]; rfl
  have hdd1 : dd hb = none := by rw [← hhead]; exact hdd
  have hyield := loadNextYield_row dd s1 hb hbs hfin1 hbw1 hbt1 hdd1
  have hload : loadNext dd u cv fuel s
      = ⟨true, none, some hb,
          { s1 with c := { s1.c with buffer := (s1.c.buffer.Pop Value.vnull).2 } }⟩ := by
    rw [loadNext_via dd u cv fuel s hloop hnotend, hdec]
    exact hyield
  have hle2 : (loadNext dd u cv fuel s).sys.c.lastErr = none := by
    rw [hload]; exact hle
  rw [Next_no_recorded_error dd u cv fuel s hcl hle2, hload, hhead]

/- ------------------------------------------------------------------
   Claim C3: draining a fully delivered stream.
   ------------------------------------------------------------------ -/

/-- Invariant carried through a drain: open cursor, no recorded error,
finished stream, well-formed queues with the given logical contents. -/
def DrainInv (s : Sys) (bs : List Value) (rs : List RawBatch) : Prop :=
  s.c.closed = false ∧ s.c.lastErr = none ∧ s.c.finished = true
  ∧ s.c.buffer.wf ∧ s.c.buffer.toList Value.vnull = bs
  ∧ s.c.responses.wf ∧ s.c.responses.toList RawBatch.rawNil = rs

/-- A raw batch that unmarshals and normalizes successfully and contributes
the given non-empty row list. -/
def BatchRows (u : String → Except Err Value) (cv : Value → Except Err Value)
    (r : RawBatch) (rows : List Value) : Prop :=
  ∃ m v w, r = RawBatch.msg m ∧ u m = Except.ok v ∧ cv v = Except.ok w
    ∧ rowsOf w = rows ∧ rows ≠ []

theorem drain_spec (u : String → Except Err Value)
    (cv : Value → Except Err Value) :
    ∀ (n : Nat) (s : Sys) (bs : List Value) (rs : List RawBatch)
      (rss : List (List Value)),
      DrainInv s bs rs → List.Forall₂ (BatchRows u cv) rs rss →
      bs.length + rss.flatten.length < n →
      (drain genericDest u cv 0 n s).1 = bs ++ rss.flatten
      ∧ DrainInv (drain genericDest u cv 0 n s).2 [] [] := by
  intro n
  induction n with
  | zero => intro s bs rs rss _ _ hlen; omega
  | succ n ih =>
    intro s bs rs rss hinv hfor hlen
    obtain ⟨hcl, hle, hfin, hbw, hbt, hrw, hrt⟩ := hinv
    cases bs with
    | cons b bs' =>
      have hstep := Next_buffer_step genericDest u cv 0 s b bs' hcl hle hfin
        hbw hbt rfl
      have hbpos : 0 < s.c.buffer.nelems := by
        have h2 := queue.length_toList Value.vnull s.c.buffer
        rw [hbt] at h2
        simp at h2
        omega
      have hpop := queue.pop_spec Value.vnull s.c.buffer hbw hbpos
      have htail : (s.c.buffer.Pop Value.vnull).2.toList Value.vnull = bs' := by
        rw [hpop.2.2.1, hbt, List.tail_cons]
      have hinv' : DrainInv
          { s with c := { s.c with buffer := (s.c.buffer.Pop Value.vnull).2 } }
          bs' rs :=
        ⟨hcl, hle, hfin, hpop.2.1, htail, hrw, hrt⟩
      have hlen' : bs'.length + rss.flatten.length < n := by
        simp at hlen ⊢
        omega
      obtain ⟨ihr, ihi⟩ := ih _ bs' rs rss hinv' hfor hlen'
      refine ⟨?_, ?_⟩
      · simp only [drain, hstep]
        simp [ihr]
      · simp only [drain, hstep]
        simpa using ihi
    | nil =>
      cases hfor with
      | nil =>
        have hstep := Next_end_step genericDest u cv 0 s hcl hle hfin hbt hrt
        refine ⟨?_, ?_⟩
        · simp [drain, hstep]
        · simp only [drain, hstep]
          have hfinal : DrainInv s ([] : List Value) ([] : List RawBatch) :=
            ⟨hcl, hle, hfin, hbw, hbt, hrw, hrt⟩
          simpa using hfinal
      | cons hbr hfor' =>
        rename_i r rows rs' rss'
        obtain ⟨m, v, w, hr, hu, hcv, hrows_eq, hne⟩ := hbr
        rw [hr] at hrt
        have hstep := Next_batch_step genericDest u cv 0 s m rs' v w hcl hle
          hfin hbw hbt hrw hrt hu hcv (by rw [hrows_eq]; exact hne) rfl
        obtain ⟨hwfB, htlB⟩ := bufferBatchValue_spec s.c.buffer hbw w
        have htlB' : (bufferBatchValue s.c.buffer w).toList Value.vnull
            = rows := by
          rw [htlB, hbt, hrows_eq]
          rfl
        obtain ⟨hd, tl, hrows_cons⟩ : ∃ hd tl, rows = hd :: tl := by
          rcases List.exists_cons_of_ne_nil hne with ⟨hd, tl, he⟩
          exact ⟨hd, tl, he⟩
        have hBpos : 0 < (bufferBatchValue s.c.buffer w).nelems := by
          have h2 := queue.length_toList Value.vnull
            (bufferBatchValue s.c.buffer w)
          rw [htlB', hrows_cons] at h2
          simp at h2
          omega
        have hpopB := queue.pop_spec Value.vnull
          (bufferBatchValue s.c.buffer w) hwfB hBpos
        have hRpos : 0 < s.c.responses.nelems := by
          have h2 := queue.length_toList RawBatch.rawNil s.c.responses
          rw [hrt] at h2
          simp at h2
          omega
        have hpopR := queue.pop_spec RawBatch.rawNil s.c.responses hrw hRpos
        have htailB : ((bufferBatchValue s.c.buffer w).Pop Value.vnull).2.toList
            Value.vnull = rows.tail := by
          rw [hpopB.2.2.1, htlB']
        have htailR : (s.c.responses.Pop RawBatch.rawNil).2.toList
            RawBatch.rawNil = rs' := by
          rw [hpopR.2.2.1, hrt, List.tail_cons]
        have hinv₂ : DrainInv
            { s with c := { s.c with
                responses := (s.c.responses.Pop RawBatch.rawNil).2,
                buffer := ((bufferBatchValue s.c.buffer w).Pop Value.vnull).2 } }
            rows.tail rs' :=
          ⟨hcl, hle, hfin, hpopB.2.1, htailB, hpopR.2.1, htailR⟩
        have hlen₂ : rows.tail.length + rss'.flatten.length < n := by
          rw [hrows_cons] at hlen ⊢
          simp at hlen ⊢
          omega
        obtain ⟨ihr, ihi⟩ := ih _ rows.tail rs' rss' hinv₂ hfor' hlen₂
        refine ⟨?_, ?_⟩
        · simp only [drain, hstep]
          simp [ihr, hrows_eq, hrows_cons]
        · simp only [drain, hstep]
          simpa using ihi

theorem extend_spec (s : Sys) (r : Response) (hrw : s.c.responses.wf) :
    (Sys.extend s r).c.responses.wf
    ∧ (Sys.extend s r).c.responses.toList RawBatch.rawNil
        = s.c.responses.toList RawBatch.rawNil ++ r.responses.map RawBatch.msg
    ∧ (Sys.extend s r).c.closed = s.c.closed
    ∧ (Sys.extend s r).c.lastErr = s.c.lastErr
    ∧ (Sys.extend s r).c.buffer = s.c.buffer
    ∧ (Sys.extend s r).c.finished
        = (r.rtype != RType.succMore && r.rtype != RType.successFeed) := by
  obtain ⟨h1, h2⟩ := queue.pushList_spec RawBatch.rawNil
    (r.responses.map RawBatch.msg) s.c.responses hrw
  have hfold : r.responses.foldl
      (fun q m => q.Push RawBatch.rawNil (RawBatch.msg m)) s.c.responses
      = (r.responses.map RawBatch.msg).foldl
          (queue.Push RawBatch.rawNil) s.c.responses := by
    rw [List.foldl_map]
  refine ⟨?_, ?_, rfl, rfl, rfl, rfl⟩
  · show (r.responses.foldl
      (fun q m => q.Push RawBatch.rawNil (RawBatch.msg m)) s.c.responses).wf
    rw [hfold]
    exact h1
  · show (r.responses.foldl
      (fun q m => q.Push RawBatch.rawNil (RawBatch.msg m))
        s.c.responses).toList RawBatch.rawNil = _
    rw [hfold, h2]

theorem extendAll_spec : ∀ (replies : List Response) (s : Sys),
    s.c.responses.wf →
    (extendAll s replies).c.responses.wf
    ∧ (extendAll s replies).c.responses.toList RawBatch.rawNil
        = s.c.responses.toList RawBatch.rawNil
          ++ (replies.map (fun r => r.responses.map RawBatch.msg)).flatten
    ∧ (extendAll s replies).c.closed = s.c.closed
    ∧ (extendAll s replies).c.lastErr = s.c.lastErr
    ∧ (extendAll s replies).c.buffer = s.c.buffer := by
  intro replies
  induction replies with
  | nil => intro s hw; exact ⟨hw, by simp [extendAll], rfl, rfl, rfl⟩
  | cons r rl ih =>
    intro s hw
    obtain ⟨e1, e2, e3, e4, e5, _⟩ := extend_spec s r hw
    have hstep : extendAll s (r :: rl) = extendAll (Sys.extend s r) rl := by
      simp [extendAll]
    obtain ⟨i1, i2, i3, i4, i5⟩ := ih (Sys.extend s r) e1
    rw [hstep]
    refine ⟨i1, ?_, by rw [i3, e3], by rw [i4, e4], by rw [i5, e5]⟩
    rw [i2, e2]
    simp

def uC3 : String → Except Err Value := fun t =>
  if t = "[]" then Except.ok (Value.varr [])
  else if t = "[42]" then Except.ok (Value.varr [Value.vnum 42])
  else Except.error (Err.external "unexpected")

/-- Two replies delivered via `extend`: a partial one whose single batch
decodes to the empty sequence, then a final one whose batch decodes to the
single row 42. -/
def sC3x : Sys := extendAll (initSys (some ⟨true⟩) 9 [] none)
  [⟨RType.succMore, ["[]"]⟩, ⟨RType.successSequence, ["[42]"]⟩]

/-- C3 counterexample: the claim promises that draining yields all Σkᵢ rows
(here the one row 42) even when an intermediate batch decodes to an empty
sequence.  On the code, `loadNext` consumes the empty batch, finds the row
buffer still empty, and returns false (cursor.go:196-199) without looking at
the remaining batch: the drain yields no rows at all, with `Err()` nil. -/
theorem C3_counterexample :
    (drain genericDest uC3 cvId 0 2 sC3x).1 = []
    ∧ (drain genericDest uC3 cvId 0 2 sC3x).1 ≠ [Value.vnum 42]
    ∧ CursorErr (drain genericDest uC3 cvId 0 2 sC3x).2.c = none := by
  refine ⟨rfl, ?_, rfl⟩
  have comp : (drain genericDest uC3 cvId 0 2 sC3x).1 = [] := rfl
  rw [comp]
  simp

/-- The cursor after a full delivery of `replies` via `extend`, starting from
a fresh cursor. -/
def C3sys (conn : Option Conn) (token : Int) (stopErr : Option Err)
    (replies : List Response) : Sys :=
  extendAll (initSys conn token [] stopErr) replies

/-- C3 (amended: every delivered batch decodes to at least one row — an
intermediate batch decoding to an empty sequence silently ends the
iteration instead, see the counterexample): for every sequence of server
replies delivered via `extend` with the last reply marked final, where batch
`i` decodes to the non-empty row list `rssᵢ`, repeatedly calling `Next`
yields exactly the concatenation of all row lists in arrival order, after
which `Next` returns false and `Err()` returns nil. -/
theorem C3_drain_yields_all_rows (u : String → Except Err Value)
    (cv : Value → Except Err Value) (conn : Option Conn) (token : Int)
    (stopErr : Option Err) (rs₀ : List Response) (rLast : Response)
    (rss : List (List Value))
    (hlast : (rLast.rtype != RType.succMore
        && rLast.rtype != RType.successFeed) = true)
    (hfor : List.Forall₂ (BatchRows u cv)
      (((rs₀ ++ [rLast]).map (fun r => r.responses.map RawBatch.msg)).flatten)
      rss) :
    (drain genericDest u cv 0 (rss.flatten.length + 1)
      (C3sys conn token stopErr (rs₀ ++ [rLast]))).1 = rss.flatten
    ∧ CursorErr (drain genericDest u cv 0 (rss.flatten.length + 1)
        (C3sys conn token stopErr (rs₀ ++ [rLast]))).2.c = none
    ∧ (Next genericDest u cv 0
        (drain genericDest u cv 0 (rss.flatten.length + 1)
          (C3sys conn token stopErr (rs₀ ++ [rLast]))).2).ok = false := by
  have h0w : (initSys conn token [] stopErr).c.responses.wf := queue.wf_mk0
  obtain ⟨hw1, ht1, hcl1, hle1, hbuf1⟩ :=
    extendAll_spec (rs₀ ++ [rLast]) (initSys conn token [] stopErr) h0w
  have hsplit : C3sys conn token stopErr (rs₀ ++ [rLast])
      = Sys.extend (extendAll (initSys conn token [] stopErr) rs₀) rLast := by
    show extendAll _ _ = _
    simp [extendAll]
  have hw0' : (extendAll (initSys conn token [] stopErr) rs₀).c.responses.wf :=
    (extendAll_spec rs₀ (initSys conn token [] stopErr) h0w).1
  have hfin : (C3sys conn token stopErr (rs₀ ++ [rLast])).c.finished = true := by
    rw [hsplit,
      (extend_spec (extendAll (initSys conn token [] stopErr) rs₀) rLast
        hw0').2.2.2.2.2]
    exact hlast
  have hinv : DrainInv (C3sys conn token stopErr (rs₀ ++ [rLast])) []
      (((rs₀ ++ [rLast]).map (fun r => r.responses.map RawBatch.msg)).flatten) := by
    refine ⟨?_, ?_, hfin, ?_, ?_, hw1, ?_⟩
    · show (extendAll _ _).c.closed = false
      rw [hcl1]; rfl
    · show (extendAll _ _).c.lastErr = none
      rw [hle1]; rfl
    · show (extendAll _ _).c.buffer.wf
      rw [hbuf1]; exact queue.wf_mk0
    · show (extendAll _ _).c.buffer.toList Value.vnull = []
      rw [hbuf1]; exact queue.toList_mk0 Value.vnull
    · show (extendAll _ _).c.responses.toList RawBatch.rawNil = _
      rw [ht1]
      simp [initSys, newCursor, queue.toList_mk0]
  obtain ⟨hres, hfinal⟩ := drain_spec u cv (rss.flatten.length + 1)
    (C3sys conn token stopErr (rs₀ ++ [rLast])) []
    (((rs₀ ++ [rLast]).map (fun r => r.responses.map RawBatch.msg)).flatten)
    rss hinv hfor (by simp)
  obtain ⟨fcl, fle, ffin, fbw, fbt, frw, frt⟩ := hfinal
  refine ⟨by simpa using hres, fle, ?_⟩
  rw [Next_end_step genericDest u cv 0 _ fcl fle ffin fbt frt]

def uW : String → Except Err Value := fun t =>
  if t = "[1,2]" then Except.ok (Value.varr [Value.vnum 1, Value.vnum 2])
  else if t = "[3]" then Except.ok (Value.varr [Value.vnum 3])
  else Except.error (Err.external "unexpected")

theorem C3_witness :
    (drain genericDest uW cvId 0 4
      (C3sys (some ⟨true⟩) 9 none
        [⟨RType.succMore, ["[1,2]"]⟩, ⟨RType.successSequence, ["[3]"]⟩])).1
      = [Value.vnum 1, Value.vnum 2, Value.vnum 3]
    ∧ (Next genericDest uW cvId 0
        (drain genericDest uW cvId 0 4
          (C3sys (some ⟨true⟩) 9 none
            [⟨RType.succMore, ["[1,2]"]⟩,
             ⟨RType.successSequence, ["[3]"]⟩])).2).ok = false := by
  have hf1 : BatchRows uW cvId (RawBatch.msg "[1,2]")
      [Value.vnum 1, Value.vnum 2] :=
    ⟨"[1,2]", Value.varr [Value.vnum 1, Value.vnum 2],
      Value.varr [Value.vnum 1, Value.vnum 2], rfl, rfl, rfl, rfl, by simp⟩
  have hf2 : BatchRows uW cvId (RawBatch.msg "[3]") [Value.vnum 3] :=
    ⟨"[3]", Value.varr [Value.vnum 3], Value.varr [Value.vnum 3],
      rfl, rfl, rfl, rfl, by simp⟩
  have h := C3_drain_yields_all_rows uW cvId (some ⟨true⟩) 9 none
    [⟨RType.succMore, ["[1,2]"]⟩] ⟨RType.successSequence, ["[3]"]⟩
    [[Value.vnum 1, Value.vnum 2], [Value.vnum 3]] rfl
    (List.Forall₂.cons hf1 (List.Forall₂.cons hf2 List.Forall₂.nil))
  exact ⟨h.1, h.2.2⟩

/- ------------------------------------------------------------------
   Claim C4: batch decoding pushes rows correctly; a null reply is a row.
   ------------------------------------------------------------------ -/

/-- C4: when `loadNext` decodes one raw batch, the push block (cursor.go:
179-187) appends to the row buffer: every element individually and in order
when the normalized value is a sequence; a single `nil` marker when the
value is exactly `nil`; the single value otherwise.  Consequently a null
reply makes `Next` return true and deliver a nil value, not return
false. -/
theorem C4_batch_rows_and_null_reply (q : queue Value) (hq : q.wf) (w : Value)
    (u : String → Except Err Value) (cv : Value → Except Err Value)
    (fuel : Nat) (s : Sys) (m : String) (v : Value)
    (hcl : s.c.closed = false) (hle : s.c.lastErr = none)
    (hfin : s.c.finished = true) (hbw : s.c.buffer.wf)
    (hbt : s.c.buffer.toList Value.vnull = [])
    (hrw : s.c.responses.wf)
    (hrt : s.c.responses.toList RawBatch.rawNil = [RawBatch.msg m])
    (hu : u m = Except.ok v) (hcv : cv v = Except.ok Value.vnull) :
    (bufferBatchValue q w).toList Value.vnull
      = q.toList Value.vnull ++ rowsOf w
    ∧ (Next genericDest u cv fuel s).ok = true
    ∧ (Next genericDest u cv fuel s).dest = some Value.vnull := by
  have hstep := Next_batch_step genericDest u cv fuel s m [] v Value.vnull
    hcl hle hfin hbw hbt hrw hrt hu hcv (by simp [rowsOf]) rfl
  refine ⟨(bufferBatchValue_spec q hq w).2, ?_, ?_⟩
  · rw [hstep]
  · rw [hstep]
    rfl

def uNull : String → Except Err Value := fun t =>
  if t = "null" then Except.ok Value.vnull
  else Except.error (Err.external "unexpected")

def sC4 : Sys := extendAll (initSys (some ⟨true⟩) 2 [] none)
  [⟨RType.successSequence, ["null"]⟩]

theorem C4_witness :
    (bufferBatchValue queue.mk0
        (Value.varr [Value.vnum 7, Value.vnull])).toList Value.vnull
      = [Value.vnum 7, Value.vnull]
    ∧ (Next genericDest uNull cvId 0 sC4).ok = true
    ∧ (Next genericDest uNull cvId 0 sC4).dest = some Value.vnull :=
  C4_batch_rows_and_null_reply queue.mk0 queue.wf_mk0
    (Value.varr [Value.vnum 7, Value.vnull]) uNull cvId 0 sC4 "null"
    Value.vnull rfl rfl rfl (by decide) rfl (by decide) rfl rfl rfl
